import Mathlib

/-!
Verification of the fixreal fixed-point conversion library.

The Python source (`fixreal.py`) is shallowly embedded below.  Python
floats are modelled as rationals (ℚ); all the arithmetic performed by the
library on the values of interest is exact dyadic arithmetic that doubles
represent exactly, so ℚ is a faithful model on the stated domains.
Python non-negative machine integers are modelled as ℕ, with the bitwise
operators `&&&`, `>>>`, `<<<` mirroring `&`, `>>`, `<<`.  Raised
exceptions are modelled with `Except`.
-/

namespace Fixreal

/-- Python exceptions raised by the library: `ConversionError` (declared in
`fixreal.py`) and `struct.error` (raised by `struct.unpack` on a buffer whose
length does not match the format). -/
inductive PyError where
  | conversionError (msg : String)
  | structError (msg : String)
deriving Repr, DecidableEq

/-- The conversion structure built by `get_conv`: a dictionary in the Python
source, a record here, with one field per dictionary key, in the order the
source fills them in. -/
structure Conv where
  bits : Nat
  bin_point : Nat
  signed : Bool
  scaling : ℚ
  dec_step : ℚ
  dec_mask : Nat
  fmt : Char
  sign_mask : Nat
  int_min : Int
  int_mask : Nat
  int_max : Nat
deriving Repr, DecidableEq

/-- `sum([2 ** i for i in l])`. -/
def listPowSum (l : List Nat) : Nat := (l.map fun i => 2 ^ i).sum

/-- Python `range(a, b)` (empty when `b ≤ a`). -/
def pyRange (a b : Nat) : List Nat := List.range' a (b - a)

/-- The `struct` format character chosen by `get_conv` for each bit width:
`"B"` for 8, `"H"` for 16, `"I"` for 32, error otherwise. -/
def structFmt (bits : Nat) : Option Char :=
  if bits = 8 then some 'B'
  else if bits = 16 then some 'H'
  else if bits = 32 then some 'I'
  else none

/-- `_get_unsigned_params`: the four sign-dependent fields
`(sign_mask, int_min, int_mask, int_max)` for an unsigned conversion. -/
def _get_unsigned_params (bits bin_point : Nat) : Nat × Int × Nat × Nat :=
  (0, 0, listPowSum (pyRange bin_point bits), listPowSum (pyRange 0 (bits - bin_point)))

/-- `_get_signed_params`: the four sign-dependent fields
`(sign_mask, int_min, int_mask, int_max)` for a signed conversion. -/
def _get_signed_params (bits bin_point : Nat) : Nat × Int × Nat × Nat :=
  (2 ^ (bits - 1), -(2 ^ (bits - 1 - bin_point) : Int),
    listPowSum (pyRange bin_point (bits - 1)),
    listPowSum (pyRange 0 (bits - bin_point - 1)))

/-- `get_conv(bits, bin_point, signed=False, scaling=1.0)`. -/
def get_conv (bits bin_point : Nat) (signed : Bool) (scaling : ℚ) :
    Except PyError Conv :=
  let dec_step : ℚ := 1 / 2 ^ bin_point
  let dec_mask : Nat := listPowSum (pyRange 0 bin_point)
  match structFmt bits with
  | none =>
      Except.error (PyError.conversionError ("numer of bits not supported: " ++ toString bits))
  | some fmt =>
      if signed then
        match _get_signed_params bits bin_point with
        | (sign_mask, int_min, int_mask, int_max) =>
            Except.ok (Conv.mk bits bin_point signed scaling dec_step dec_mask fmt
              sign_mask int_min int_mask int_max)
      else
        match _get_unsigned_params bits bin_point with
        | (sign_mask, int_min, int_mask, int_max) =>
            Except.ok (Conv.mk bits bin_point signed scaling dec_step dec_mask fmt
              sign_mask int_min int_mask int_max)

/-- Case-insensitive literal match of `pat` at the head of `s`
(the behaviour of a literal under `re.I`); returns the matched original
characters together with the remainder of the string. -/
def ciStarts (pat : List Char) (s : List Char) : Option (List Char × List Char) :=
  match pat, s with
  | [], rest => some ([], rest)
  | _ :: _, [] => none
  | p :: ps, c :: cs =>
      if c.toLower = p.toLower then
        match ciStarts ps cs with
        | some (m, rest) => some (c :: m, rest)
        | none => none
      else none

/-- Value of a digit string, `int(s)`. -/
def digitsToNat (ds : List Char) : Nat :=
  ds.foldl (fun a c => 10 * a + (c.toNat - '0'.toNat)) 0

/-- The match `re.match(r"^(u?fix)_(\d+)_(\d+)", name, flags=re.I)`:
returns the text captured by group 1 (in its original case) and the numeric
values of groups 2 and 3, or `none` when the pattern does not match.
`u?fix` is equivalent to trying `ufix` first and then `fix`, and `\d+` is
a maximal nonempty run of digits. -/
def matchName (s : List Char) : Option (List Char × Nat × Nat) :=
  let g1 :=
    match ciStarts ['u', 'f', 'i', 'x'] s with
    | some r => some r
    | none => ciStarts ['f', 'i', 'x'] s
  match g1 with
  | none => none
  | some (m, rest) =>
      match rest with
      | '_' :: r2 =>
          let d1 := r2.takeWhile Char.isDigit
          let r3 := r2.dropWhile Char.isDigit
          if d1 = [] then none
          else
            match r3 with
            | '_' :: r4 =>
                let d2 := r4.takeWhile Char.isDigit
                if d2 = [] then none
                else some (m, digitsToNat d1, digitsToNat d2)
            | _ => none
      | _ => none

/-- `conv_from_name(name)`: parse a simulink-style type name.  Note the
source compares the matched group 1 text with the lowercase literal
`'fix'` using Python `==`, which is case-sensitive even though the regular
expression itself matched case-insensitively. -/
def conv_from_name (name : String) : Except PyError Conv :=
  match matchName name.data with
  | none => Except.error (PyError.conversionError ("Cannot interpret name: " ++ name))
  | some (m, bits, binary) =>
      let signed : Bool := decide (String.mk m = "fix")
      get_conv bits binary signed 1

/-- `fix2real(uval, conv)`: decode a raw unsigned register value. -/
def fix2real (uval : Nat) (conv : Conv) : ℚ :=
  let int_val : Nat := (uval &&& conv.int_mask) >>> conv.bin_point
  let dec_val : ℚ := conv.dec_step * ((uval &&& conv.dec_mask : Nat) : ℚ)
  let res : ℚ :=
    if conv.signed = true ∧ 0 < uval &&& conv.sign_mask then
      (conv.int_min : ℚ) + (int_val : ℚ) + dec_val
    else
      (int_val : ℚ) + dec_val
  res / conv.scaling

/-- Byte order selectors accepted by `struct`: `"@"`/`"="` (native),
`"<"` (little), `">"`/`"!"` (big).  Native order is little-endian on the
platforms the library targets. -/
inductive Endianness where
  | native
  | little
  | big
deriving Repr, DecidableEq

/-- `struct.unpack` of a single unsigned element: the integer encoded by
`bs` in the given byte order. -/
def unpackInt (e : Endianness) (bs : List Nat) : Nat :=
  match e with
  | Endianness.little => bs.foldr (fun b acc => b + 256 * acc) 0
  | Endianness.native => bs.foldr (fun b acc => b + 256 * acc) 0
  | Endianness.big => bs.foldl (fun acc b => 256 * acc + b) 0

/-- `struct.calcsize` of one element for the format characters used by the
library. -/
def calcsize (c : Char) : Nat :=
  if c = 'B' then 1 else if c = 'H' then 2 else if c = 'I' then 4 else 0

/-- `bin2real(binary_string, conv, endianness)`: `struct.unpack` raises
`struct.error` unless the buffer length equals the size of one element. -/
def bin2real (binary_string : List Nat) (conv : Conv) (endianness : Endianness) :
    Except PyError ℚ :=
  if binary_string.length = calcsize conv.fmt then
    Except.ok (fix2real (unpackInt endianness binary_string) conv)
  else
    Except.error (PyError.structError "unpack requires a buffer of the right length")

/-- The first `n` consecutive `w`-byte groups of a buffer. -/
def chunksN (w : Nat) : Nat → List Nat → List (List Nat)
  | 0, _ => []
  | n + 1, bs => bs.take w :: chunksN w n (bs.drop w)

/-- `stream2real(binary_stream, conv, endianness)`: `size = len // itemsize`;
`struct.unpack` of `size` elements raises `struct.error` unless the buffer
length is exactly `size` elements, i.e. a multiple of the element size. -/
def stream2real (binary_stream : List Nat) (conv : Conv) (endianness : Endianness) :
    Except PyError (List ℚ) :=
  let w := calcsize conv.fmt
  let size := binary_stream.length / w
  if binary_stream.length = size * w then
    Except.ok (((chunksN w size binary_stream).map (unpackInt endianness)).map
      (fun d => fix2real d conv))
  else
    Except.error (PyError.structError "unpack requires a buffer of the right length")

/-- `real2fix(real, conv)`: encode a real number into its fixed
representation.  The locals of the source are written with suffixes instead
of Python's rebinding: `real1` is `real` after the sign shift, `dec0`,
`dec1`, `dec2` are the successive values of `dec`, and `dec_val1` is the
rebound `dec_val`. -/
def real2fix (real : ℚ) (conv : Conv) : Except PyError ℚ :=
  if conv.signed = false ∧ real < 0 then
    Except.error (PyError.conversionError
      ("cannot convert " ++ toString real ++ " to unsigned representation"))
  else
    let sign : Nat := if real < 0 then 1 else 0
    let real1 : ℚ := if real < 0 then real - (conv.int_min : ℚ) else real
    let int_val0 : Int := ⌊|real1|⌋
    let dec_val : ℚ := |real1| - (⌊|real1|⌋ : ℚ)
    let int_val : Nat := int_val0.toNat &&& (conv.int_mask >>> conv.bin_point)
    let dec0 : Int := ⌊dec_val / conv.dec_step⌋
    let dec1 : Int := if (conv.dec_mask : Int) < dec0 then (conv.dec_mask : Int) else dec0
    let dec_val1 : ℚ := (dec1 : ℚ) * conv.dec_step
    let val : ℚ := (int_val : ℚ) + dec_val1
    let dec2 : Int := if real1 - val + conv.dec_step < val - real1 then dec1 - 1 else dec1
    if sign = 1 then
      Except.ok ((conv.sign_mask : ℚ) +
        (((int_val <<< conv.bin_point) &&& conv.int_mask : Nat) : ℚ) + (dec2 : ℚ))
    else
      Except.ok ((((int_val <<< conv.bin_point) &&& conv.int_mask : Nat) : ℚ) + (dec2 : ℚ))

/-- The canonical simulink-style name of a format, lowercase prefix. -/
def canonicalName (bits bin_point : Nat) (signed : Bool) : String :=
  (if signed then "fix" else "ufix") ++ "_" ++ toString bits ++ "_" ++ toString bin_point

/-- Decode `uval` with the format built by `get_conv bits bin_point signed 1`. -/
def decodeOf (bits bin_point : Nat) (signed : Bool) (uval : Nat) : Except PyError ℚ :=
  Except.map (fix2real uval) (get_conv bits bin_point signed 1)

/-! ### Helper lemmas about the sums of powers used for the masks -/

lemma listPowSum_range' (n a : Nat) : listPowSum (List.range' a n) = 2 ^ (a + n) - 2 ^ a := by
  induction n generalizing a with
  | zero => simp [listPowSum]
  | succ n ih =>
      rw [List.range'_succ]
      have h1 : listPowSum (a :: List.range' (a + 1) n) = 2 ^ a + listPowSum (List.range' (a + 1) n) := by
        simp [listPowSum]
      rw [h1, ih]
      have h2 : 2 ^ (a + 1) ≤ 2 ^ (a + 1 + n) := Nat.pow_le_pow_right (by norm_num) (by omega)
      have h3 : 2 ^ (a + 1) = 2 * 2 ^ a := by rw [pow_succ]; ring
      have h4 : 2 ^ (a + 1 + n) = 2 ^ (a + (n + 1)) := by congr 1; omega
      omega

lemma listPowSum_pyRange (a b : Nat) (h : a ≤ b) :
    listPowSum (pyRange a b) = 2 ^ b - 2 ^ a := by
  rw [pyRange, listPowSum_range']
  congr 2
  omega

lemma listPowSum_pyRange_zero (n : Nat) : listPowSum (pyRange 0 n) = 2 ^ n - 1 := by
  rw [listPowSum_pyRange 0 n (Nat.zero_le n)]
  norm_num

/-! ### Characterization of `get_conv` -/

lemma structFmt_eq_some {bits : Nat} {c : Char} (h : structFmt bits = some c) :
    (bits = 8 ∧ c = 'B') ∨ (bits = 16 ∧ c = 'H') ∨ (bits = 32 ∧ c = 'I') := by
  rw [structFmt] at h
  split_ifs at h with h8 h16 h32
  · exact Or.inl ⟨h8, (Option.some.inj h).symm⟩
  · exact Or.inr (Or.inl ⟨h16, (Option.some.inj h).symm⟩)
  · exact Or.inr (Or.inr ⟨h32, (Option.some.inj h).symm⟩)

lemma get_conv_ok {bits bp : Nat} {s : Bool} {sc : ℚ} {conv : Conv}
    (h : get_conv bits bp s sc = Except.ok conv) :
    (bits = 8 ∨ bits = 16 ∨ bits = 32) ∧
    conv = Conv.mk bits bp s sc (1 / 2 ^ bp) (listPowSum (pyRange 0 bp))
      (if bits = 8 then 'B' else if bits = 16 then 'H' else 'I')
      (if s then 2 ^ (bits - 1) else 0)
      (if s then -(2 ^ (bits - 1 - bp) : Int) else 0)
      (if s then listPowSum (pyRange bp (bits - 1)) else listPowSum (pyRange bp bits))
      (if s then listPowSum (pyRange 0 (bits - bp - 1)) else listPowSum (pyRange 0 (bits - bp))) := by
  rw [get_conv] at h
  rcases hm : structFmt bits with _ | c
  · rw [hm] at h
    exact Except.noConfusion h
  · rw [hm] at h
    rcases structFmt_eq_some hm with ⟨hb, hc⟩ | ⟨hb, hc⟩ | ⟨hb, hc⟩ <;>
      subst hb <;> subst hc <;>
      cases s <;>
      simp [_get_signed_params, _get_unsigned_params] at h <;>
      simp [← h]

lemma get_conv_error_iff (bits bp : Nat) (s : Bool) (sc : ℚ) :
    (∀ conv, get_conv bits bp s sc ≠ Except.ok conv) ↔
      ¬(bits = 8 ∨ bits = 16 ∨ bits = 32) := by
  constructor
  · intro h hb
    rcases hs : get_conv bits bp s sc with e | conv
    · rw [get_conv] at hs
      obtain ⟨c, hc⟩ : ∃ c, structFmt bits = some c := by
        rw [structFmt]
        rcases hb with hb | hb | hb <;> simp [hb]
      rw [hc] at hs
      cases s <;> simp [_get_signed_params, _get_unsigned_params] at hs
    · exact h conv hs
  · intro hb conv h
    exact hb (get_conv_ok h).1

/-! ### Bit-manipulation helper lemmas -/

lemma and_ones_shiftLeft (x k p : Nat) :
    x &&& ((2 ^ k - 1) <<< p) = ((x >>> p) &&& (2 ^ k - 1)) <<< p := by
  apply Nat.eq_of_testBit_eq
  intro i
  simp only [Nat.testBit_and, Nat.testBit_shiftLeft, Nat.testBit_shiftRight]
  by_cases hp : p ≤ i
  · simp [hp, Nat.add_sub_cancel' hp]
  · simp [hp]

lemma and_ones_shiftLeft_eq (x k p : Nat) :
    x &&& ((2 ^ k - 1) <<< p) = (x / 2 ^ p % 2 ^ k) * 2 ^ p := by
  rw [and_ones_shiftLeft, Nat.and_pow_two_sub_one_eq_mod, Nat.shiftRight_eq_div_pow,
    Nat.shiftLeft_eq]

lemma ones_shiftLeft_form (k p : Nat) : (2 ^ k - 1) <<< p = 2 ^ (k + p) - 2 ^ p := by
  rw [Nat.shiftLeft_eq, Nat.sub_mul, one_mul, ← pow_add]

lemma mask_sub_form (b p : Nat) (h : p ≤ b) : 2 ^ b - 2 ^ p = (2 ^ (b - p) - 1) <<< p := by
  rw [ones_shiftLeft_form]
  congr 2
  omega

lemma mod_two_pow_and (x m b : Nat) (hm : m < 2 ^ b) : x % 2 ^ b &&& m = x &&& m := by
  apply Nat.eq_of_testBit_eq
  intro i
  simp only [Nat.testBit_and, Nat.testBit_mod_two_pow]
  by_cases hb : i < b
  · simp [hb]
  · have hmi : m.testBit i = false :=
      Nat.testBit_lt_two_pow
        (lt_of_lt_of_le hm (Nat.pow_le_pow_right (by norm_num) (by omega)))
    simp [hmi, hb]

lemma get_conv_ok_unsigned {bits bp : Nat} {sc : ℚ} {conv : Conv}
    (h : get_conv bits bp false sc = Except.ok conv) :
    (bits = 8 ∨ bits = 16 ∨ bits = 32) ∧
    conv = Conv.mk bits bp false sc (1 / 2 ^ bp) (listPowSum (pyRange 0 bp))
      (if bits = 8 then 'B' else if bits = 16 then 'H' else 'I')
      0 0 (listPowSum (pyRange bp bits)) (listPowSum (pyRange 0 (bits - bp))) := by
  have h2 := get_conv_ok h
  simpa using h2

lemma get_conv_ok_signed {bits bp : Nat} {sc : ℚ} {conv : Conv}
    (h : get_conv bits bp true sc = Except.ok conv) :
    (bits = 8 ∨ bits = 16 ∨ bits = 32) ∧
    conv = Conv.mk bits bp true sc (1 / 2 ^ bp) (listPowSum (pyRange 0 bp))
      (if bits = 8 then 'B' else if bits = 16 then 'H' else 'I')
      (2 ^ (bits - 1)) (-(2 ^ (bits - 1 - bp) : Int))
      (listPowSum (pyRange bp (bits - 1))) (listPowSum (pyRange 0 (bits - bp - 1))) := by
  have h2 := get_conv_ok h
  simpa using h2

/-- Claim C2: for every descriptor, `fix2real` equals the integer part
`(raw & intMask) >> binaryPoint` plus `decStep * (raw & decMask)`, plus `intMin`
exactly when the format is signed and the sign bit of `raw` is set, all divided
by `scaling`; decoding raw value 0 yields 0 for every format with nonzero
scaling; and the five concrete 8-bit scenarios for raw `0b10000001` hold. -/
theorem fix2real_formula_and_scenarios :
    (∀ (conv : Conv) (uval : Nat),
        fix2real uval conv =
          ((((uval &&& conv.int_mask) >>> conv.bin_point : Nat) : ℚ) +
              conv.dec_step * ((uval &&& conv.dec_mask : Nat) : ℚ) +
              (if conv.signed = true ∧ 0 < uval &&& conv.sign_mask then (conv.int_min : ℚ) else 0)) /
            conv.scaling) ∧
    (∀ conv : Conv, conv.scaling ≠ 0 → fix2real 0 conv = 0) ∧
    decodeOf 8 7 true 129 = Except.ok (-(127 / 128) : ℚ) ∧
    decodeOf 8 5 true 129 = Except.ok (-(127 / 32) : ℚ) ∧
    decodeOf 8 0 true 129 = Except.ok (-127 : ℚ) ∧
    decodeOf 8 7 false 129 = Except.ok ((129 / 128) : ℚ) ∧
    decodeOf 8 0 false 129 = Except.ok (129 : ℚ) := by
  refine ⟨?_, ?_, ?_, ?_, ?_, ?_, ?_⟩
  · intro conv uval
    rw [fix2real]
    by_cases h : conv.signed = true ∧ 0 < uval &&& conv.sign_mask
    · rw [if_pos h, if_pos h]; ring_nf
    · rw [if_neg h, if_neg h]; ring_nf
  · intro conv hsc
    simp [fix2real]
  · have h1 : get_conv 8 7 true 1 = Except.ok (Conv.mk 8 7 true 1 (1/128) 127 'B' 128 (-1) 0 0) := by
      simp [get_conv, structFmt, _get_signed_params, listPowSum, pyRange, List.range']
      norm_num
    rw [decodeOf, h1]
    simp only [Except.map]
    norm_num [fix2real, show ((129:ℕ) &&& 0) = 0 from rfl, show ((129:ℕ) &&& 127) = 1 from rfl,
      show ((129:ℕ) &&& 128) = 128 from rfl]
  · have h1 : get_conv 8 5 true 1 = Except.ok (Conv.mk 8 5 true 1 (1/32) 31 'B' 128 (-4) 96 3) := by
      simp [get_conv, structFmt, _get_signed_params, listPowSum, pyRange, List.range']
      norm_num
    rw [decodeOf, h1]
    simp only [Except.map]
    norm_num [fix2real, show ((129:ℕ) &&& 96) = 0 from rfl, show ((129:ℕ) &&& 31) = 1 from rfl,
      show ((129:ℕ) &&& 128) = 128 from rfl]
  · have h1 : get_conv 8 0 true 1 = Except.ok (Conv.mk 8 0 true 1 1 0 'B' 128 (-128) 127 127) := by
      simp [get_conv, structFmt, _get_signed_params, listPowSum, pyRange, List.range']
    rw [decodeOf, h1]
    simp only [Except.map]
    norm_num [fix2real, show ((129:ℕ) &&& 127) = 1 from rfl, show ((129:ℕ) &&& 0) = 0 from rfl,
      show ((129:ℕ) &&& 128) = 128 from rfl]
  · have h1 : get_conv 8 7 false 1 = Except.ok (Conv.mk 8 7 false 1 (1/128) 127 'B' 0 0 128 1) := by
      simp [get_conv, structFmt, _get_unsigned_params, listPowSum, pyRange, List.range']
      norm_num
    rw [decodeOf, h1]
    simp only [Except.map]
    norm_num [fix2real, show ((129:ℕ) &&& 128) = 128 from rfl, show ((129:ℕ) &&& 127) = 1 from rfl,
      show ((128:ℕ) >>> 7) = 1 from rfl]
  · have h1 : get_conv 8 0 false 1 = Except.ok (Conv.mk 8 0 false 1 1 0 'B' 0 0 255 255) := by
      simp [get_conv, structFmt, _get_unsigned_params, listPowSum, pyRange, List.range']
    rw [decodeOf, h1]
    simp only [Except.map]
    norm_num [fix2real, show ((129:ℕ) &&& 255) = 129 from rfl, show ((129:ℕ) &&& 0) = 0 from rfl]

/-- Witness for `fix2real_formula_and_scenarios`: the zero-decode conjunct applied to
the concrete unsigned 8-bit format. -/
theorem fix2real_formula_witness :
    ((Conv.mk 8 0 false 1 1 0 'B' 0 0 255 255 : Conv).scaling ≠ 0) ∧
      fix2real 0 (Conv.mk 8 0 false 1 1 0 'B' 0 0 255 255) = 0 :=
  ⟨one_ne_zero, fix2real_formula_and_scenarios.2.1 (Conv.mk 8 0 false 1 1 0 'B' 0 0 255 255)
    one_ne_zero⟩

/-- Claim C5: `real2fix` fails with a `ConversionError` (the `SignError` of the
spec) exactly when the format is unsigned and the input is negative; no other
input fails. -/
theorem real2fix_sign_error_iff (real : ℚ) (conv : Conv) :
    (∃ msg, real2fix real conv = Except.error (PyError.conversionError msg)) ↔
      conv.signed = false ∧ real < 0 := by
  rw [real2fix]
  by_cases h : conv.signed = false ∧ real < 0
  · rw [if_pos h]
    simp only [h, and_self, iff_true]
    exact ⟨_, rfl⟩
  · rw [if_neg h]
    simp only [h, iff_false]
    rintro ⟨msg, hmsg⟩
    split at hmsg <;> exact Except.noConfusion hmsg

/-- Claim C9: scaling is asymmetric.  Decoding divides the raw result by
`scaling` (decoding with the same format but scaling 1 and then dividing gives
the same value), while `real2fix` is entirely independent of the `scaling`
field: replacing `scaling` by an arbitrary value never changes its outcome. -/
theorem scaling_asymmetry :
    (∀ (conv : Conv) (uval : Nat),
        fix2real uval conv =
          fix2real uval (Conv.mk conv.bits conv.bin_point conv.signed 1 conv.dec_step
              conv.dec_mask conv.fmt conv.sign_mask conv.int_min conv.int_mask conv.int_max) /
            conv.scaling) ∧
    (∀ (real : ℚ) (conv : Conv) (sc : ℚ),
        real2fix real (Conv.mk conv.bits conv.bin_point conv.signed sc conv.dec_step
            conv.dec_mask conv.fmt conv.sign_mask conv.int_min conv.int_mask conv.int_max) =
          real2fix real conv) := by
  constructor
  · intro conv uval
    simp only [fix2real, div_one]
  · intro real conv sc
    rfl

/-- Claim C10: `fix2real` depends only on the low `bits` bits of its input:
decoding `raw` and decoding `raw % 2 ^ bits` give the same value, because every
mask consulted lies below bit position `bits`. -/
theorem fix2real_mod_two_pow (bits bp : Nat) (s : Bool) (sc : ℚ) (conv : Conv)
    (h : get_conv bits bp s sc = Except.ok conv) (hbp : bp < bits) (raw : Nat) :
    fix2real raw conv = fix2real (raw % 2 ^ conv.bits) conv := by
  have hpow : (2:ℕ) ^ bp ≤ 2 ^ bits := Nat.pow_le_pow_right (by norm_num) (by omega)
  have hpow1 : (1:ℕ) ≤ 2 ^ bp := Nat.one_le_two_pow
  have hdm : listPowSum (pyRange 0 bp) < 2 ^ bits := by
    rw [listPowSum_pyRange_zero]; omega
  cases s
  · obtain ⟨hb, hc⟩ := get_conv_ok_unsigned h
    subst hc
    have him : listPowSum (pyRange bp bits) < 2 ^ bits := by
      rw [listPowSum_pyRange bp bits (le_of_lt hbp)]; omega
    simp only [fix2real, Nat.and_zero]
    rw [mod_two_pow_and raw _ bits him, mod_two_pow_and raw _ bits hdm]
  · obtain ⟨hb, hc⟩ := get_conv_ok_signed h
    subst hc
    have hsm : (2:ℕ) ^ (bits - 1) < 2 ^ bits := Nat.pow_lt_pow_right (by norm_num) (by omega)
    have him : listPowSum (pyRange bp (bits - 1)) < 2 ^ bits := by
      rw [listPowSum_pyRange bp (bits - 1) (by omega)]; omega
    simp only [fix2real]
    rw [mod_two_pow_and raw _ bits him, mod_two_pow_and raw _ bits hdm,
      mod_two_pow_and raw _ bits hsm]

/-- Witness for `fix2real_mod_two_pow`: the unsigned 8-bit integer format at
raw value 300. -/
theorem fix2real_mod_two_pow_witness :
    fix2real 300 (Conv.mk 8 0 false 1 (1 / 2 ^ 0) (listPowSum (pyRange 0 0)) 'B' 0 0
        (listPowSum (pyRange 0 8)) (listPowSum (pyRange 0 8))) =
      fix2real (300 % 2 ^ 8) (Conv.mk 8 0 false 1 (1 / 2 ^ 0) (listPowSum (pyRange 0 0)) 'B' 0 0
        (listPowSum (pyRange 0 8)) (listPowSum (pyRange 0 8))) :=
  fix2real_mod_two_pow 8 0 false 1 _ rfl (by decide) 300

/-- Counterexample to claim C3 as stated: the canonical signed name in upper
case, `"FIX_8_7"`, parses (the regular expression is case-insensitive) but the
signedness comparison `params['signed'] == 'fix'` is case-sensitive, so the
result is the unsigned descriptor, not `get_conv 8 7 true`. -/
theorem conv_from_name_case_counterexample :
    conv_from_name "FIX_8_7" ≠ get_conv 8 7 true 1 ∧
    conv_from_name "FIX_8_7" = get_conv 8 7 false 1 := by
  constructor
  · intro h
    have h2 := congrArg (Except.map Conv.signed) h
    rw [show Except.map Conv.signed (conv_from_name "FIX_8_7") = Except.ok false from rfl,
      show Except.map Conv.signed (get_conv 8 7 true 1) = Except.ok true from rfl] at h2
    exact Bool.noConfusion (Except.ok.inj h2)
  · rfl

/-- Claim C3 (amended): for every valid `(bits, binaryPoint, signed)` with
`binaryPoint < bits`, parsing the canonical lowercase name returns exactly the
descriptor built by `get_conv bits binaryPoint signed 1.0`.  (The original
claim's "in any letter case" fails: a signed prefix spelled in any case other
than lowercase `fix` parses as unsigned, see the counterexample.) -/
theorem conv_from_name_canonical (bits bp : Nat) (s : Bool)
    (hb : bits = 8 ∨ bits = 16 ∨ bits = 32) (hbp : bp < bits) :
    conv_from_name (canonicalName bits bp s) = get_conv bits bp s 1 := by
  rcases hb with hb | hb | hb <;> subst hb <;> cases s <;> interval_cases bp <;> rfl

/-- Witness for `conv_from_name_canonical`: the signed 8.7 format. -/
theorem conv_from_name_canonical_witness :
    conv_from_name (canonicalName 8 7 true) = get_conv 8 7 true 1 :=
  conv_from_name_canonical 8 7 true (Or.inl rfl) (by decide)

/-- Claim C7: `get_conv` fails exactly when `bits` is not 8, 16 or 32; for
`binaryPoint < bits` the returned descriptor has `decStep = 1/2^binaryPoint`,
`decMask = 2^binaryPoint - 1`, and the sign-specific constants: unsigned gives
`signMask = 0`, `intMin = 0`, `intMask` = bits `binaryPoint..bits-1`
(= `2^bits - 2^binaryPoint`), `intMax = 2^(bits-binaryPoint) - 1`; signed gives
`signMask = 2^(bits-1)`, `intMin = -2^(bits-1-binaryPoint)`, `intMask` = bits
`binaryPoint..bits-2` (= `2^(bits-1) - 2^binaryPoint`),
`intMax = 2^(bits-1-binaryPoint) - 1`. -/
theorem get_conv_field_spec :
    (∀ (bits bp : Nat) (s : Bool) (sc : ℚ),
        (∀ conv, get_conv bits bp s sc ≠ Except.ok conv) ↔ ¬(bits = 8 ∨ bits = 16 ∨ bits = 32)) ∧
    (∀ (bits bp : Nat) (s : Bool) (sc : ℚ) (conv : Conv),
        get_conv bits bp s sc = Except.ok conv → bp < bits →
          conv.dec_step = 1 / 2 ^ bp ∧
          conv.dec_mask = 2 ^ bp - 1 ∧
          (s = false →
            conv.sign_mask = 0 ∧ conv.int_min = 0 ∧
            conv.int_mask = 2 ^ bits - 2 ^ bp ∧ conv.int_max = 2 ^ (bits - bp) - 1) ∧
          (s = true →
            conv.sign_mask = 2 ^ (bits - 1) ∧ conv.int_min = -(2 ^ (bits - 1 - bp) : Int) ∧
            conv.int_mask = 2 ^ (bits - 1) - 2 ^ bp ∧ conv.int_max = 2 ^ (bits - 1 - bp) - 1)) := by
  constructor
  · exact get_conv_error_iff
  · intro bits bp s sc conv h hbp
    cases s
    · obtain ⟨hb, hc⟩ := get_conv_ok_unsigned h
      subst hc
      refine ⟨rfl, listPowSum_pyRange_zero bp, fun _ => ⟨rfl, rfl, ?_, ?_⟩, fun hs => Bool.noConfusion hs⟩
      · exact listPowSum_pyRange bp bits (le_of_lt hbp)
      · exact listPowSum_pyRange_zero (bits - bp)
    · obtain ⟨hb, hc⟩ := get_conv_ok_signed h
      subst hc
      refine ⟨rfl, listPowSum_pyRange_zero bp, fun hs => Bool.noConfusion hs,
        fun _ => ⟨rfl, rfl, ?_, ?_⟩⟩
      · exact listPowSum_pyRange bp (bits - 1) (by omega)
      · show listPowSum (pyRange 0 (bits - bp - 1)) = 2 ^ (bits - 1 - bp) - 1
        have he : bits - bp - 1 = bits - 1 - bp := by omega
        rw [listPowSum_pyRange_zero (bits - bp - 1), he]

/-- Witness for `get_conv_field_spec`: the field part applied to the signed
16.3 format. -/
theorem get_conv_field_spec_witness :
    (Conv.mk 16 3 true 1 (1 / 2 ^ 3) (listPowSum (pyRange 0 3)) 'H' (2 ^ 15) (-(2 ^ 12))
        (listPowSum (pyRange 3 15)) (listPowSum (pyRange 0 12))).dec_step = 1 / 2 ^ 3 ∧
    (Conv.mk 16 3 true 1 (1 / 2 ^ 3) (listPowSum (pyRange 0 3)) 'H' (2 ^ 15) (-(2 ^ 12))
        (listPowSum (pyRange 3 15)) (listPowSum (pyRange 0 12))).dec_mask = 2 ^ 3 - 1 ∧
    ((true : Bool) = false →
      (Conv.mk 16 3 true 1 (1 / 2 ^ 3) (listPowSum (pyRange 0 3)) 'H' (2 ^ 15) (-(2 ^ 12))
          (listPowSum (pyRange 3 15)) (listPowSum (pyRange 0 12))).sign_mask = 0 ∧
      (Conv.mk 16 3 true 1 (1 / 2 ^ 3) (listPowSum (pyRange 0 3)) 'H' (2 ^ 15) (-(2 ^ 12))
          (listPowSum (pyRange 3 15)) (listPowSum (pyRange 0 12))).int_min = 0 ∧
      (Conv.mk 16 3 true 1 (1 / 2 ^ 3) (listPowSum (pyRange 0 3)) 'H' (2 ^ 15) (-(2 ^ 12))
          (listPowSum (pyRange 3 15)) (listPowSum (pyRange 0 12))).int_mask = 2 ^ 16 - 2 ^ 3 ∧
      (Conv.mk 16 3 true 1 (1 / 2 ^ 3) (listPowSum (pyRange 0 3)) 'H' (2 ^ 15) (-(2 ^ 12))
          (listPowSum (pyRange 3 15)) (listPowSum (pyRange 0 12))).int_max = 2 ^ (16 - 3) - 1) ∧
    ((true : Bool) = true →
      (Conv.mk 16 3 true 1 (1 / 2 ^ 3) (listPowSum (pyRange 0 3)) 'H' (2 ^ 15) (-(2 ^ 12))
          (listPowSum (pyRange 3 15)) (listPowSum (pyRange 0 12))).sign_mask = 2 ^ (16 - 1) ∧
      (Conv.mk 16 3 true 1 (1 / 2 ^ 3) (listPowSum (pyRange 0 3)) 'H' (2 ^ 15) (-(2 ^ 12))
          (listPowSum (pyRange 3 15)) (listPowSum (pyRange 0 12))).int_min = -(2 ^ (16 - 1 - 3)) ∧
      (Conv.mk 16 3 true 1 (1 / 2 ^ 3) (listPowSum (pyRange 0 3)) 'H' (2 ^ 15) (-(2 ^ 12))
          (listPowSum (pyRange 3 15)) (listPowSum (pyRange 0 12))).int_mask = 2 ^ (16 - 1) - 2 ^ 3 ∧
      (Conv.mk 16 3 true 1 (1 / 2 ^ 3) (listPowSum (pyRange 0 3)) 'H' (2 ^ 15) (-(2 ^ 12))
          (listPowSum (pyRange 3 15)) (listPowSum (pyRange 0 12))).int_max = 2 ^ (16 - 1 - 3) - 1) :=
  get_conv_field_spec.2 16 3 true 1
    (Conv.mk 16 3 true 1 (1 / 2 ^ 3) (listPowSum (pyRange 0 3)) 'H' (2 ^ 15) (-(2 ^ 12))
      (listPowSum (pyRange 3 15)) (listPowSum (pyRange 0 12))) rfl (by decide)

lemma conv_elem_size {bits bp : Nat} {s : Bool} {sc : ℚ} {conv : Conv}
    (h : get_conv bits bp s sc = Except.ok conv) :
    calcsize conv.fmt = conv.bits / 8 ∧ 0 < conv.bits / 8 := by
  obtain ⟨hb, hc⟩ := get_conv_ok h
  subst hc
  rcases hb with hb | hb | hb <;> subst hb
  · exact ⟨(by decide :
      calcsize (if (8:Nat) = 8 then 'B' else if (8:Nat) = 16 then 'H' else 'I') = 8 / 8),
      by norm_num⟩
  · exact ⟨(by decide :
      calcsize (if (16:Nat) = 8 then 'B' else if (16:Nat) = 16 then 'H' else 'I') = 16 / 8),
      by norm_num⟩
  · exact ⟨(by decide :
      calcsize (if (32:Nat) = 8 then 'B' else if (32:Nat) = 16 then 'H' else 'I') = 32 / 8),
      by norm_num⟩

/-- Claim C6: `bin2real` fails with `struct.error` (the spec's `FormatError`)
exactly when the buffer length differs from `bits / 8`, and `stream2real`
fails with `struct.error` exactly when the buffer length is not a multiple of
`bits / 8`; otherwise both succeed. -/
theorem buffer_length_error_iff (bits bp : Nat) (s : Bool) (sc : ℚ) (conv : Conv)
    (h : get_conv bits bp s sc = Except.ok conv) (bs : List Nat) (e : Endianness) :
    ((bin2real bs conv e =
        Except.error (PyError.structError "unpack requires a buffer of the right length")) ↔
      bs.length ≠ conv.bits / 8) ∧
    ((stream2real bs conv e =
        Except.error (PyError.structError "unpack requires a buffer of the right length")) ↔
      bs.length % (conv.bits / 8) ≠ 0) := by
  obtain ⟨hcal, hW⟩ := conv_elem_size h
  constructor
  · rw [bin2real, hcal]
    by_cases hl : bs.length = conv.bits / 8
    · rw [if_pos hl]
      simp [hl]
    · rw [if_neg hl]
      simp [hl]
  · simp only [stream2real, hcal]
    by_cases hg : bs.length = bs.length / (conv.bits / 8) * (conv.bits / 8)
    · rw [if_pos hg]
      have hdvd : conv.bits / 8 ∣ bs.length :=
        ⟨bs.length / (conv.bits / 8), by rw [Nat.mul_comm]; exact hg⟩
      have hmod : bs.length % (conv.bits / 8) = 0 := Nat.mod_eq_zero_of_dvd hdvd
      simp [hmod]
    · rw [if_neg hg]
      have hmod : bs.length % (conv.bits / 8) ≠ 0 := by
        intro h0
        exact hg (by rw [Nat.div_mul_cancel (Nat.dvd_of_mod_eq_zero h0)])
      simp [hmod]

/-- Witness for `buffer_length_error_iff`: a two-byte buffer against the
8-bit unsigned integer format. -/
theorem buffer_length_error_witness :
    ((bin2real [1, 2] (Conv.mk 8 0 false 1 (1 / 2 ^ 0) (listPowSum (pyRange 0 0)) 'B' 0 0
          (listPowSum (pyRange 0 8)) (listPowSum (pyRange 0 8))) Endianness.little =
        Except.error (PyError.structError "unpack requires a buffer of the right length")) ↔
      (2 : Nat) ≠ 8 / 8) ∧
    ((stream2real [1, 2] (Conv.mk 8 0 false 1 (1 / 2 ^ 0) (listPowSum (pyRange 0 0)) 'B' 0 0
          (listPowSum (pyRange 0 8)) (listPowSum (pyRange 0 8))) Endianness.little =
        Except.error (PyError.structError "unpack requires a buffer of the right length")) ↔
      (2 : Nat) % (8 / 8) ≠ 0) :=
  buffer_length_error_iff 8 0 false 1 _ rfl [1, 2] Endianness.little

lemma chunksN_length (w : Nat) : ∀ (n : Nat) (bs : List Nat), (chunksN w n bs).length = n := by
  intro n
  induction n with
  | zero => intro bs; rfl
  | succ n ih => intro bs; simp [chunksN, ih]

lemma chunksN_getElem (w : Nat) : ∀ (n : Nat) (bs : List Nat) (i : Nat), i < n →
    (chunksN w n bs)[i]? = some ((bs.drop (i * w)).take w) := by
  intro n
  induction n with
  | zero => intro bs i hi; omega
  | succ n ih =>
      intro bs i hi
      cases i with
      | zero => simp [chunksN]
      | succ i =>
          have hstep : chunksN w (n + 1) bs = bs.take w :: chunksN w n (bs.drop w) := rfl
          rw [hstep, List.getElem?_cons_succ, ih (bs.drop w) i (by omega), List.drop_drop]
          have harith : w + i * w = (i + 1) * w := by ring
          rw [harith]

/-- Claim C8: on a buffer of exactly `n * (bits/8)` bytes, `stream2real`
returns a list of exactly `n` reals whose `i`-th element is the value
`bin2real` produces on the `i`-th consecutive `(bits/8)`-byte slice with the
same endianness, preserving buffer order. -/
theorem stream2real_decomposes (bits bp : Nat) (s : Bool) (sc : ℚ) (conv : Conv)
    (h : get_conv bits bp s sc = Except.ok conv) (e : Endianness) (n : Nat) (bs : List Nat)
    (hlen : bs.length = n * (conv.bits / 8)) :
    Except.map List.length (stream2real bs conv e) = Except.ok n ∧
    ∀ i, i < n →
      Except.map (fun l => l.getD i 0) (stream2real bs conv e) =
        bin2real ((bs.drop (i * (conv.bits / 8))).take (conv.bits / 8)) conv e := by
  obtain ⟨hcal, hW⟩ := conv_elem_size h
  have hsize : bs.length / (conv.bits / 8) = n := by
    rw [hlen]; exact Nat.mul_div_cancel n hW
  have hguard : bs.length = bs.length / calcsize conv.fmt * calcsize conv.fmt := by
    rw [hcal, hsize, hlen]
  have hstream : stream2real bs conv e =
      Except.ok (((chunksN (calcsize conv.fmt) (bs.length / calcsize conv.fmt) bs).map
        (unpackInt e)).map (fun d => fix2real d conv)) := by
    rw [stream2real, if_pos hguard]
  rw [hcal, hsize] at hstream
  constructor
  · rw [hstream]
    simp [Except.map, chunksN_length]
  · intro i hi
    rw [hstream]
    have hchunk := chunksN_getElem (conv.bits / 8) n bs i hi
    have hslice_len : ((bs.drop (i * (conv.bits / 8))).take (conv.bits / 8)).length =
        conv.bits / 8 := by
      simp only [List.length_take, List.length_drop]
      rw [hlen]
      have : n * (conv.bits / 8) - i * (conv.bits / 8) = (n - i) * (conv.bits / 8) := by
        rw [Nat.sub_mul]
      rw [this]
      have h1 : conv.bits / 8 ≤ (n - i) * (conv.bits / 8) := by
        have : 1 ≤ n - i := by omega
        calc conv.bits / 8 = 1 * (conv.bits / 8) := by ring
        _ ≤ (n - i) * (conv.bits / 8) := Nat.mul_le_mul_right _ this
      omega
    rw [bin2real, hcal, if_pos hslice_len]
    simp only [Except.map]
    congr 1
    rw [List.getD_eq_getElem?_getD, List.getElem?_map, List.getElem?_map, hchunk]
    rfl

/-- Witness for `stream2real_decomposes`: two one-byte elements, second
element recovered by slicing. -/
theorem stream2real_decomposes_witness :
    Except.map List.length (stream2real [1, 2] (Conv.mk 8 0 false 1 (1 / 2 ^ 0)
        (listPowSum (pyRange 0 0)) 'B' 0 0 (listPowSum (pyRange 0 8))
        (listPowSum (pyRange 0 8))) Endianness.little) = Except.ok 2 ∧
    Except.map (fun l => l.getD 1 0) (stream2real [1, 2] (Conv.mk 8 0 false 1 (1 / 2 ^ 0)
        (listPowSum (pyRange 0 0)) 'B' 0 0 (listPowSum (pyRange 0 8))
        (listPowSum (pyRange 0 8))) Endianness.little) =
      bin2real ((([1, 2] : List Nat).drop (1 * (8 / 8))).take (8 / 8))
        (Conv.mk 8 0 false 1 (1 / 2 ^ 0) (listPowSum (pyRange 0 0)) 'B' 0 0
          (listPowSum (pyRange 0 8)) (listPowSum (pyRange 0 8))) Endianness.little :=
  ⟨(stream2real_decomposes 8 0 false 1 _ rfl Endianness.little 2 [1, 2] rfl).1,
    (stream2real_decomposes 8 0 false 1 _ rfl Endianness.little 2 [1, 2] rfl).2 1 (by decide)⟩

lemma real2fix_nonneg_repr (conv : Conv) (iv dv : Nat)
    (hstep : conv.dec_step = 1 / 2 ^ conv.bin_point)
    (hdm : conv.dec_mask = 2 ^ conv.bin_point - 1)
    (hdv : dv < 2 ^ conv.bin_point)
    (hiv : iv &&& (conv.int_mask >>> conv.bin_point) = iv) :
    real2fix ((iv : ℚ) + (dv : ℚ) * conv.dec_step) conv =
      Except.ok ((((iv <<< conv.bin_point) &&& conv.int_mask : Nat) : ℚ) + (dv : ℚ)) := by
  have hp : (0:ℚ) < 2 ^ conv.bin_point := by positivity
  have hp1 : (1:ℕ) ≤ 2 ^ conv.bin_point := Nat.one_le_two_pow
  have hstep0 : 0 < conv.dec_step := by rw [hstep]; positivity
  have hdvq : (dv:ℚ) * conv.dec_step < 1 := by
    rw [hstep, mul_one_div, div_lt_one hp]
    exact_mod_cast hdv
  have hdvq0 : 0 ≤ (dv:ℚ) * conv.dec_step := by positivity
  have hr0 : (0:ℚ) ≤ (iv:ℚ) + (dv:ℚ) * conv.dec_step := by positivity
  have hlt : ¬((iv:ℚ) + (dv:ℚ) * conv.dec_step < 0) := not_lt.2 hr0
  have habs : |(iv:ℚ) + (dv:ℚ) * conv.dec_step| = (iv:ℚ) + (dv:ℚ) * conv.dec_step :=
    abs_of_nonneg hr0
  have hfl : ⌊(iv:ℚ) + (dv:ℚ) * conv.dec_step⌋ = (iv : ℤ) := by
    rw [Int.floor_eq_iff]
    constructor
    · push_cast
      linarith
    · push_cast
      linarith
  have hsub : (iv:ℚ) + (dv:ℚ) * conv.dec_step - (iv:ℚ) = (dv:ℚ) * conv.dec_step := by ring
  have hdivq : (dv:ℚ) * conv.dec_step / conv.dec_step = (dv:ℚ) :=
    mul_div_cancel_right₀ _ (ne_of_gt hstep0)
  have hclamp : ¬((conv.dec_mask : ℤ) < ((dv:ℕ) : ℤ)) := by
    rw [hdm]
    omega
  rw [real2fix]
  rw [if_neg (fun hc => hlt hc.2)]
  simp only [if_neg hlt, habs, hfl, Int.toNat_natCast, Int.cast_natCast, hiv, hsub, hdivq,
    Int.floor_natCast, if_neg hclamp, sub_self, zero_add]
  rw [if_neg (not_lt.2 (le_of_lt hstep0))]
  rw [if_neg (by norm_num : ¬(0:ℕ) = 1)]
  norm_cast
lemma real2fix_neg_repr (conv : Conv) (iv dv : Nat) (r : ℚ)
    (hsigned : conv.signed = true)
    (hneg : r < 0)
    (hstep : conv.dec_step = 1 / 2 ^ conv.bin_point)
    (hdm : conv.dec_mask = 2 ^ conv.bin_point - 1)
    (hdv : dv < 2 ^ conv.bin_point)
    (hiv : iv &&& (conv.int_mask >>> conv.bin_point) = iv)
    (hsh : r - (conv.int_min : ℚ) = (iv : ℚ) + (dv : ℚ) * conv.dec_step) :
    real2fix r conv =
      Except.ok ((conv.sign_mask : ℚ) +
        (((iv <<< conv.bin_point) &&& conv.int_mask : Nat) : ℚ) + (dv : ℚ)) := by
  have hp : (0:ℚ) < 2 ^ conv.bin_point := by positivity
  have hp1 : (1:ℕ) ≤ 2 ^ conv.bin_point := Nat.one_le_two_pow
  have hstep0 : 0 < conv.dec_step := by rw [hstep]; positivity
  have hdvq : (dv:ℚ) * conv.dec_step < 1 := by
    rw [hstep, mul_one_div, div_lt_one hp]
    exact_mod_cast hdv
  have hdvq0 : 0 ≤ (dv:ℚ) * conv.dec_step := by positivity
  have hr0 : (0:ℚ) ≤ (iv:ℚ) + (dv:ℚ) * conv.dec_step := by positivity
  have habs : |(iv:ℚ) + (dv:ℚ) * conv.dec_step| = (iv:ℚ) + (dv:ℚ) * conv.dec_step :=
    abs_of_nonneg hr0
  have hfl : ⌊(iv:ℚ) + (dv:ℚ) * conv.dec_step⌋ = (iv : ℤ) := by
    rw [Int.floor_eq_iff]
    constructor
    · push_cast
      linarith
    · push_cast
      linarith
  have hsub : (iv:ℚ) + (dv:ℚ) * conv.dec_step - (iv:ℚ) = (dv:ℚ) * conv.dec_step := by ring
  have hdivq : (dv:ℚ) * conv.dec_step / conv.dec_step = (dv:ℚ) :=
    mul_div_cancel_right₀ _ (ne_of_gt hstep0)
  have hclamp : ¬((conv.dec_mask : ℤ) < ((dv:ℕ) : ℤ)) := by
    rw [hdm]
    omega
  rw [real2fix]
  rw [if_neg (fun hc => by rw [hsigned] at hc; exact Bool.noConfusion hc.1)]
  simp only [if_pos hneg, hsh, habs, hfl, Int.toNat_natCast, Int.cast_natCast, hiv, hsub, hdivq,
    Int.floor_natCast, if_neg hclamp, sub_self, zero_add]
  rw [if_neg (not_lt.2 (le_of_lt hstep0))]
  simp only [if_true]
  norm_cast

lemma and_mask_div (raw b p : Nat) (hp : p ≤ b) :
    raw &&& (2 ^ b - 2 ^ p) = raw / 2 ^ p % 2 ^ (b - p) * 2 ^ p := by
  rw [mask_sub_form b p hp, and_ones_shiftLeft_eq]

lemma and_mask_div_shift (raw b p : Nat) (hp : p ≤ b) :
    (raw &&& (2 ^ b - 2 ^ p)) >>> p = raw / 2 ^ p % 2 ^ (b - p) := by
  rw [and_mask_div raw b p hp, Nat.shiftRight_eq_div_pow,
    Nat.mul_div_cancel _ (Nat.two_pow_pos p)]

lemma mask_shiftRight (b p : Nat) (hp : p ≤ b) :
    (2 ^ b - 2 ^ p) >>> p = 2 ^ (b - p) - 1 := by
  rw [mask_sub_form b p hp, Nat.shiftLeft_eq, Nat.shiftRight_eq_div_pow,
    Nat.mul_div_cancel _ (Nat.two_pow_pos p)]

lemma iv_and_mask_shiftRight (iv b p : Nat) (hp : p ≤ b) (hiv : iv < 2 ^ (b - p)) :
    iv &&& ((2 ^ b - 2 ^ p) >>> p) = iv := by
  rw [mask_shiftRight b p hp, Nat.and_pow_two_sub_one_eq_mod, Nat.mod_eq_of_lt hiv]

lemma shiftLeft_and_mask (iv b p : Nat) (hp : p ≤ b) (hiv : iv < 2 ^ (b - p)) :
    (iv <<< p) &&& (2 ^ b - 2 ^ p) = iv * 2 ^ p := by
  rw [and_mask_div _ b p hp, Nat.shiftLeft_eq,
    Nat.mul_div_cancel _ (Nat.two_pow_pos p), Nat.mod_eq_of_lt hiv]

lemma and_sign_low (raw b : Nat) (h : raw < 2 ^ (b - 1)) : raw &&& 2 ^ (b - 1) = 0 := by
  rw [Nat.and_two_pow, Nat.testBit_lt_two_pow h]
  simp

lemma and_sign_high (raw b : Nat) (h1 : 2 ^ (b - 1) ≤ raw) (h2 : raw < 2 ^ b) (hb : 1 ≤ b) :
    raw &&& 2 ^ (b - 1) = 2 ^ (b - 1) := by
  rw [Nat.and_two_pow]
  have hpow : 2 ^ b = 2 * 2 ^ (b - 1) := by
    have hb' : b - 1 + 1 = b := by omega
    conv_lhs => rw [← hb']
    rw [pow_succ']
  have hdiv : raw / 2 ^ (b - 1) = 1 := by
    apply Nat.div_eq_of_lt_le
    · simpa using h1
    · omega
  rw [Nat.testBit_to_div_mod, hdiv]
  norm_num

lemma roundtrip_core_nonneg (conv : Conv) (w bp raw : Nat)
    (hbp' : conv.bin_point = bp)
    (hsigncond : ¬(conv.signed = true ∧ 0 < raw &&& conv.sign_mask))
    (hsc : conv.scaling = 1)
    (hstep : conv.dec_step = 1 / 2 ^ bp)
    (hdm : conv.dec_mask = 2 ^ bp - 1)
    (him : conv.int_mask = 2 ^ w - 2 ^ bp)
    (hbpw : bp ≤ w) (hraw : raw < 2 ^ w) :
    real2fix (fix2real raw conv) conv = Except.ok (raw : ℚ) := by
  have hp0 : (0:ℕ) < 2 ^ bp := Nat.two_pow_pos bp
  have hivlt : raw / 2 ^ bp < 2 ^ (w - bp) := by
    rw [Nat.div_lt_iff_lt_mul hp0]
    calc raw < 2 ^ w := hraw
    _ = 2 ^ (w - bp) * 2 ^ bp := by rw [← pow_add]; congr 1; omega
  have hdec : fix2real raw conv =
      ((raw / 2 ^ bp : ℕ) : ℚ) + conv.dec_step * ((raw % 2 ^ bp : ℕ) : ℚ) := by
    rw [fix2real]
    simp only [him, hdm, hbp', hsc, if_neg hsigncond, and_mask_div_shift raw w bp hbpw,
      Nat.mod_eq_of_lt hivlt, Nat.and_pow_two_sub_one_eq_mod, div_one]
  have hdec2 : fix2real raw conv =
      ((raw / 2 ^ bp : ℕ) : ℚ) + ((raw % 2 ^ bp : ℕ) : ℚ) * conv.dec_step := by
    rw [hdec]; ring
  rw [hdec2]
  rw [real2fix_nonneg_repr conv (raw / 2 ^ bp) (raw % 2 ^ bp)
    (by rw [hbp']; exact hstep)
    (by rw [hbp']; exact hdm)
    (by rw [hbp']; exact Nat.mod_lt raw hp0)
    (by rw [hbp', him]; exact iv_and_mask_shiftRight _ w bp hbpw hivlt)]
  rw [hbp', him, shiftLeft_and_mask _ w bp hbpw hivlt]
  congr 1
  have hsum : raw / 2 ^ bp * 2 ^ bp + raw % 2 ^ bp = raw := Nat.div_add_mod' raw (2 ^ bp)
  exact_mod_cast hsum

lemma roundtrip_core_neg (conv : Conv) (bits bp raw : Nat)
    (hbp' : conv.bin_point = bp)
    (hsigned : conv.signed = true)
    (hsc : conv.scaling = 1)
    (hstep : conv.dec_step = 1 / 2 ^ bp)
    (hdm : conv.dec_mask = 2 ^ bp - 1)
    (him : conv.int_mask = 2 ^ (bits - 1) - 2 ^ bp)
    (hsm : conv.sign_mask = 2 ^ (bits - 1))
    (himin : conv.int_min = -(2 ^ (bits - 1 - bp) : Int))
    (hbp : bp < bits)
    (hraw1 : 2 ^ (bits - 1) ≤ raw) (hraw2 : raw < 2 ^ bits) :
    real2fix (fix2real raw conv) conv = Except.ok (raw : ℚ) := by
  have hp0 : (0:ℕ) < 2 ^ bp := Nat.two_pow_pos bp
  have hbpw : bp ≤ bits - 1 := by omega
  have hpowb : 2 ^ bits = 2 * 2 ^ (bits - 1) := by
    have hb' : bits - 1 + 1 = bits := by omega
    conv_lhs => rw [← hb']
    rw [pow_succ']
  have hsplit : 2 ^ (bits - 1) = 2 ^ bp * 2 ^ (bits - 1 - bp) := by
    rw [← pow_add]
    congr 1
    omega
  have hr' : raw = 2 ^ bp * 2 ^ (bits - 1 - bp) + (raw - 2 ^ (bits - 1)) := by
    rw [← hsplit]
    omega
  have hrlt : raw - 2 ^ (bits - 1) < 2 ^ (bits - 1) := by omega
  have hivlt : (raw - 2 ^ (bits - 1)) / 2 ^ bp < 2 ^ (bits - 1 - bp) := by
    rw [Nat.div_lt_iff_lt_mul hp0]
    calc raw - 2 ^ (bits - 1) < 2 ^ (bits - 1) := hrlt
    _ = 2 ^ (bits - 1 - bp) * 2 ^ bp := by rw [← pow_add]; congr 1; omega
  have hdiv : raw / 2 ^ bp % 2 ^ (bits - 1 - bp) = (raw - 2 ^ (bits - 1)) / 2 ^ bp := by
    conv_lhs => rw [hr']
    rw [Nat.mul_add_div hp0, Nat.add_mod_left, Nat.mod_eq_of_lt hivlt]
  have hmod : raw % 2 ^ bp = (raw - 2 ^ (bits - 1)) % 2 ^ bp := by
    conv_lhs => rw [hr']
    rw [Nat.mul_add_mod]
  have hsign : raw &&& conv.sign_mask = 2 ^ (bits - 1) := by
    rw [hsm]
    exact and_sign_high raw bits hraw1 hraw2 (by omega)
  have hcond : conv.signed = true ∧ 0 < raw &&& conv.sign_mask :=
    ⟨hsigned, by rw [hsign]; exact Nat.two_pow_pos (bits - 1)⟩
  have hdec : fix2real raw conv =
      ((conv.int_min : ℚ) + (((raw - 2 ^ (bits - 1)) / 2 ^ bp : ℕ) : ℚ) +
        conv.dec_step * (((raw - 2 ^ (bits - 1)) % 2 ^ bp : ℕ) : ℚ)) := by
    rw [fix2real]
    simp only [if_pos hcond, him, hdm, hbp', hsc, and_mask_div_shift raw (bits - 1) bp hbpw,
      hdiv, hmod, Nat.and_pow_two_sub_one_eq_mod, div_one]
  have hstep0 : (0:ℚ) < conv.dec_step := by
    rw [hstep]
    positivity
  have hdvq : conv.dec_step * (((raw - 2 ^ (bits - 1)) % 2 ^ bp : ℕ) : ℚ) < 1 := by
    rw [hstep, one_div, inv_mul_lt_iff₀ (by positivity), mul_one]
    exact_mod_cast Nat.mod_lt _ hp0
  have hiv2q : ((((raw - 2 ^ (bits - 1)) / 2 ^ bp : ℕ) : ℚ)) + 1 ≤
      ((2 ^ (bits - 1 - bp) : ℕ) : ℚ) := by
    exact_mod_cast hivlt
  have hneg : fix2real raw conv < 0 := by
    rw [hdec, himin]
    push_cast at hiv2q ⊢
    linarith [hdvq]
  have hsh : fix2real raw conv - (conv.int_min : ℚ) =
      (((raw - 2 ^ (bits - 1)) / 2 ^ bp : ℕ) : ℚ) +
        (((raw - 2 ^ (bits - 1)) % 2 ^ bp : ℕ) : ℚ) * conv.dec_step := by
    rw [hdec]
    ring
  rw [real2fix_neg_repr conv ((raw - 2 ^ (bits - 1)) / 2 ^ bp) ((raw - 2 ^ (bits - 1)) % 2 ^ bp)
    (fix2real raw conv) hsigned hneg
    (by rw [hbp']; exact hstep)
    (by rw [hbp']; exact hdm)
    (by rw [hbp']; exact Nat.mod_lt _ hp0)
    (by rw [hbp', him]; exact iv_and_mask_shiftRight _ (bits - 1) bp hbpw hivlt)
    hsh]
  rw [hbp', him, hsm, shiftLeft_and_mask _ (bits - 1) bp hbpw hivlt]
  have hsum : (raw - 2 ^ (bits - 1)) / 2 ^ bp * 2 ^ bp + (raw - 2 ^ (bits - 1)) % 2 ^ bp =
      raw - 2 ^ (bits - 1) := Nat.div_add_mod' _ (2 ^ bp)
  have hfin : 2 ^ (bits - 1) +
      ((raw - 2 ^ (bits - 1)) / 2 ^ bp * 2 ^ bp + (raw - 2 ^ (bits - 1)) % 2 ^ bp) = raw := by
    rw [hsum]
    omega
  congr 1
  have hfinq := congrArg (fun n => ((n : ℕ) : ℚ)) hfin
  push_cast at hfinq ⊢
  linarith [hfinq]

/-- Claim C1 (amended): for every descriptor built with `scaling = 1.0` and
`binaryPoint < bits`, the round trip is exact for every raw value representable
in `bits` bits: `real2fix (fix2real raw conv) conv = raw`, with no deviation at
all (boundary, midpoint and all other values alike).  The original claim's
quantification over every descriptor fails for `scaling ≠ 1.0`, see the
counterexample. -/
theorem roundtrip_scaling_one (bits bp : Nat) (s : Bool) (conv : Conv)
    (h : get_conv bits bp s 1 = Except.ok conv) (hbp : bp < bits) (raw : Nat)
    (hraw : raw < 2 ^ bits) :
    real2fix (fix2real raw conv) conv = Except.ok (raw : ℚ) := by
  cases s
  · obtain ⟨hb, hc⟩ := get_conv_ok_unsigned h
    have hbp2 : conv.bin_point = bp := by rw [hc]
    have hsg : conv.signed = false := by rw [hc]
    have hsc : conv.scaling = 1 := by rw [hc]
    have hst : conv.dec_step = 1 / 2 ^ bp := by rw [hc]
    have hdm : conv.dec_mask = 2 ^ bp - 1 := by
      rw [hc]
      exact listPowSum_pyRange_zero bp
    have him : conv.int_mask = 2 ^ bits - 2 ^ bp := by
      rw [hc]
      exact listPowSum_pyRange bp bits (le_of_lt hbp)
    refine roundtrip_core_nonneg conv bits bp raw hbp2 ?_ hsc hst hdm him (le_of_lt hbp) hraw
    intro hcnd
    rw [hsg] at hcnd
    exact Bool.noConfusion hcnd.1
  · obtain ⟨hb, hc⟩ := get_conv_ok_signed h
    have hbp2 : conv.bin_point = bp := by rw [hc]
    have hsg : conv.signed = true := by rw [hc]
    have hsc : conv.scaling = 1 := by rw [hc]
    have hst : conv.dec_step = 1 / 2 ^ bp := by rw [hc]
    have hdm : conv.dec_mask = 2 ^ bp - 1 := by
      rw [hc]
      exact listPowSum_pyRange_zero bp
    have him : conv.int_mask = 2 ^ (bits - 1) - 2 ^ bp := by
      rw [hc]
      exact listPowSum_pyRange bp (bits - 1) (by omega)
    have hsm : conv.sign_mask = 2 ^ (bits - 1) := by rw [hc]
    have himin : conv.int_min = -(2 ^ (bits - 1 - bp) : Int) := by rw [hc]
    by_cases hsb : raw < 2 ^ (bits - 1)
    · refine roundtrip_core_nonneg conv (bits - 1) bp raw hbp2 ?_ hsc hst hdm him (by omega) hsb
      intro hcnd
      have h2 := hcnd.2
      rw [hsm, and_sign_low raw bits hsb] at h2
      exact Nat.lt_irrefl 0 h2
    · exact roundtrip_core_neg conv bits bp raw hbp2 hsg hsc hst hdm him hsm himin hbp
        (by omega) hraw

/-- Witness for `roundtrip_scaling_one`: the signed 8.7 format at raw 129
(the doctest value). -/
theorem roundtrip_scaling_one_witness :
    real2fix (fix2real 129 (Conv.mk 8 7 true 1 (1 / 2 ^ 7) (listPowSum (pyRange 0 7)) 'B'
        (2 ^ (8 - 1)) (-(2 ^ (8 - 1 - 7))) (listPowSum (pyRange 7 (8 - 1)))
        (listPowSum (pyRange 0 (8 - 7 - 1)))))
      (Conv.mk 8 7 true 1 (1 / 2 ^ 7) (listPowSum (pyRange 0 7)) 'B'
        (2 ^ (8 - 1)) (-(2 ^ (8 - 1 - 7))) (listPowSum (pyRange 7 (8 - 1)))
        (listPowSum (pyRange 0 (8 - 7 - 1)))) = Except.ok (129 : ℚ) :=
  roundtrip_scaling_one 8 7 true _ rfl (by decide) 129 (by decide)

/-- Counterexample to claim C1 as stated: with `scaling = 4.0` (a legal
descriptor field) the round trip of the boundary raw value 252 returns 63, a
deviation of 189 raw steps, far beyond one `decStep` (= 1 for this format).
Decode divides by the scaling but encode ignores it. -/
theorem roundtrip_scaling_counterexample :
    get_conv 8 0 false 4 = Except.ok (Conv.mk 8 0 false 4 1 0 'B' 0 0 255 255) ∧
    fix2real 252 (Conv.mk 8 0 false 4 1 0 'B' 0 0 255 255) = 63 ∧
    real2fix (fix2real 252 (Conv.mk 8 0 false 4 1 0 'B' 0 0 255 255))
      (Conv.mk 8 0 false 4 1 0 'B' 0 0 255 255) = Except.ok (63 : ℚ) ∧
    (252 : ℚ) - 63 > 1 := by
  have hdec : fix2real 252 (Conv.mk 8 0 false 4 1 0 'B' 0 0 255 255) = 63 := by
    norm_num [fix2real, show ((252:ℕ) &&& 255) = 252 from rfl, show ((252:ℕ) &&& 0) = 0 from rfl]
  refine ⟨?_, hdec, ?_, by norm_num⟩
  · simp [get_conv, structFmt, _get_unsigned_params, listPowSum, pyRange, List.range']
  · have hform : fix2real 252 (Conv.mk 8 0 false 4 1 0 'B' 0 0 255 255) =
        ((63 : ℕ) : ℚ) + ((0 : ℕ) : ℚ) * (Conv.mk 8 0 false 4 1 0 'B' 0 0 255 255).dec_step := by
      rw [hdec]
      norm_num
    rw [hform]
    rw [real2fix_nonneg_repr (Conv.mk 8 0 false 4 1 0 'B' 0 0 255 255) 63 0
      (by norm_num) (by norm_num) (by norm_num)
      (by decide)]
    norm_num [show ((63:ℕ) <<< 0) = 63 from rfl, show ((63:ℕ) &&& 255) = 63 from rfl]


/-! ### Named pieces of the `real2fix` computation, used to reason about the
range of its result.  Each mirrors the corresponding local of the source. -/

/-- `abs(real)` after the sign shift, as computed inside `real2fix`. -/
def pyAbsReal (real : ℚ) (conv : Conv) : ℚ :=
  |if real < 0 then real - (conv.int_min : ℚ) else real|

/-- The masked integer part `int_val` of `real2fix`. -/
def pyIntVal (real : ℚ) (conv : Conv) : Nat :=
  (⌊pyAbsReal real conv⌋).toNat &&& (conv.int_mask >>> conv.bin_point)

/-- `dec = dec_val // dec_step` of `real2fix`. -/
def pyDec0 (real : ℚ) (conv : Conv) : Int :=
  ⌊(pyAbsReal real conv - (⌊pyAbsReal real conv⌋ : ℚ)) / conv.dec_step⌋

/-- `dec` after the saturation clamp of `real2fix`. -/
def pyDec1 (real : ℚ) (conv : Conv) : Int :=
  if (conv.dec_mask : Int) < pyDec0 real conv then (conv.dec_mask : Int) else pyDec0 real conv

/-- The reconstructed `val` of `real2fix`. -/
def pyVal (real : ℚ) (conv : Conv) : ℚ :=
  (pyIntVal real conv : ℚ) + (pyDec1 real conv : ℚ) * conv.dec_step

/-- `dec` after the nearest-rounding adjustment of `real2fix`. -/
def pyDec2 (real : ℚ) (conv : Conv) : Int :=
  if (if real < 0 then real - (conv.int_min : ℚ) else real) - pyVal real conv + conv.dec_step <
      pyVal real conv - (if real < 0 then real - (conv.int_min : ℚ) else real)
  then pyDec1 real conv - 1 else pyDec1 real conv

lemma real2fix_eq_ok (conv : Conv) (real : ℚ) (hg : ¬(conv.signed = false ∧ real < 0)) :
    real2fix real conv = Except.ok
      ((((if real < 0 then conv.sign_mask else 0) : ℕ) : ℚ) +
        (((pyIntVal real conv <<< conv.bin_point) &&& conv.int_mask : ℕ) : ℚ) +
        (pyDec2 real conv : ℚ)) := by
  rw [real2fix, if_neg hg]
  by_cases hneg : real < 0
  · simp only [if_pos hneg, pyDec2, pyVal, pyDec1, pyDec0, pyIntVal, pyAbsReal,
      eq_self_iff_true, if_true]
  · simp only [if_neg hneg, pyDec2, pyVal, pyDec1, pyDec0, pyIntVal, pyAbsReal]
    rw [if_neg (by norm_num : ¬(0:ℕ) = 1)]
    rw [Nat.cast_zero, zero_add]
lemma pyDec0_nonneg (real : ℚ) (conv : Conv) (hstep0 : 0 < conv.dec_step) :
    0 ≤ pyDec0 real conv := by
  rw [pyDec0]
  apply Int.floor_nonneg.2
  apply div_nonneg _ (le_of_lt hstep0)
  rw [sub_nonneg]
  exact Int.floor_le _

lemma pyDec1_nonneg (real : ℚ) (conv : Conv) (hstep0 : 0 < conv.dec_step) :
    0 ≤ pyDec1 real conv := by
  rw [pyDec1]
  split_ifs with h
  · positivity
  · exact pyDec0_nonneg real conv hstep0

lemma pyDec1_le (real : ℚ) (conv : Conv) : pyDec1 real conv ≤ (conv.dec_mask : Int) := by
  rw [pyDec1]
  split_ifs with h
  · exact le_refl _
  · exact not_lt.1 h

lemma pyDec1_le_dec0 (real : ℚ) (conv : Conv) : pyDec1 real conv ≤ pyDec0 real conv := by
  rw [pyDec1]
  split_ifs with h
  · exact le_of_lt h
  · exact le_refl _

lemma pyDec2_bounds (real : ℚ) (conv : Conv) :
    pyDec1 real conv - 1 ≤ pyDec2 real conv ∧ pyDec2 real conv ≤ pyDec1 real conv := by
  rw [pyDec2]
  split_ifs <;> constructor <;> omega

lemma pyDec2_eq_of_nonneg (real : ℚ) (conv : Conv) (hneg : ¬real < 0)
    (hstep0 : 0 < conv.dec_step) : pyDec2 real conv = pyDec1 real conv := by
  have hreal0 : 0 ≤ real := not_lt.1 hneg
  have habs : pyAbsReal real conv = real := by
    rw [pyAbsReal, if_neg hneg]
    exact abs_of_nonneg hreal0
  have hfl0 : 0 ≤ ⌊real⌋ := Int.floor_nonneg.2 hreal0
  have hA : (pyIntVal real conv : ℚ) ≤ ((⌊real⌋ : ℤ) : ℚ) := by
    rw [pyIntVal, habs]
    have h1 : ⌊real⌋.toNat &&& (conv.int_mask >>> conv.bin_point) ≤ ⌊real⌋.toNat :=
      Nat.and_le_left
    have h2 : ((⌊real⌋.toNat : ℕ) : ℚ) = ((⌊real⌋ : ℤ) : ℚ) := by
      have h3 := Int.toNat_of_nonneg hfl0
      exact_mod_cast congrArg (fun z : ℤ => (z : ℚ)) h3
    calc ((⌊real⌋.toNat &&& (conv.int_mask >>> conv.bin_point) : ℕ) : ℚ)
        ≤ ((⌊real⌋.toNat : ℕ) : ℚ) := by exact_mod_cast h1
    _ = ((⌊real⌋ : ℤ) : ℚ) := h2
  have hD1 : (pyDec1 real conv : ℚ) * conv.dec_step ≤ real - ((⌊real⌋ : ℤ) : ℚ) := by
    have h1 : (pyDec1 real conv : ℚ) ≤ (pyDec0 real conv : ℚ) := by
      exact_mod_cast pyDec1_le_dec0 real conv
    have h2 : (pyDec0 real conv : ℚ) ≤ (real - ((⌊real⌋ : ℤ) : ℚ)) / conv.dec_step := by
      rw [pyDec0, habs]
      exact Int.floor_le _
    calc (pyDec1 real conv : ℚ) * conv.dec_step
        ≤ ((real - ((⌊real⌋ : ℤ) : ℚ)) / conv.dec_step) * conv.dec_step := by
          apply mul_le_mul_of_nonneg_right (le_trans h1 h2) (le_of_lt hstep0)
    _ = real - ((⌊real⌋ : ℤ) : ℚ) := div_mul_cancel₀ _ (ne_of_gt hstep0)
  have hval : pyVal real conv ≤ real := by
    rw [pyVal]
    have := Int.floor_le real
    linarith [hA, hD1]
  rw [pyDec2]
  simp only [if_neg hneg]
  rw [if_neg]
  intro hcond
  linarith [hval, hstep0, hcond]

/-- Claim C4: whenever `real2fix` succeeds on a valid descriptor, the returned
value is a non-negative integer (an integral rational: denominator 1,
numerator non-negative) that fits within `fmt.bits` bits. -/
theorem real2fix_output_range (bits bp : Nat) (s : Bool) (sc : ℚ) (conv : Conv)
    (h : get_conv bits bp s sc = Except.ok conv) (hbp : bp < bits) (real res : ℚ)
    (hres : real2fix real conv = Except.ok res) :
    res.den = 1 ∧ 0 ≤ res.num ∧ res.num < 2 ^ conv.bits := by
  have hg : ¬(conv.signed = false ∧ real < 0) := by
    intro hcc
    rw [real2fix, if_pos hcc] at hres
    exact Except.noConfusion hres
  obtain ⟨hb, hc⟩ := get_conv_ok h
  have hbits : conv.bits = bits := by rw [hc]
  have hstep0 : 0 < conv.dec_step := by
    rw [hc]
    show (0:ℚ) < 1 / 2 ^ bp
    positivity
  have hdm : conv.dec_mask = 2 ^ bp - 1 := by
    rw [hc]
    exact listPowSum_pyRange_zero bp
  have hform := real2fix_eq_ok conv real hg
  have hval : res = (((if real < 0 then conv.sign_mask else 0) : ℕ) : ℚ) +
      (((pyIntVal real conv <<< conv.bin_point) &&& conv.int_mask : ℕ) : ℚ) +
      (pyDec2 real conv : ℚ) :=
    Except.ok.inj (hres.symm.trans hform)
  have hresz : res = ((((if real < 0 then conv.sign_mask else 0 : ℕ) : ℤ) +
      (((pyIntVal real conv <<< conv.bin_point) &&& conv.int_mask : ℕ) : ℤ) +
      pyDec2 real conv : ℤ) : ℚ) := by
    rw [hval]
    push_cast
    ring
  have hMle : (pyIntVal real conv <<< conv.bin_point) &&& conv.int_mask ≤ conv.int_mask :=
    Nat.and_le_right
  have hDle : pyDec2 real conv ≤ ((2 ^ bp - 1 : ℕ) : ℤ) := by
    rw [← hdm]
    exact le_trans (pyDec2_bounds real conv).2 (pyDec1_le real conv)
  have hDge : -1 ≤ pyDec2 real conv := by
    have h1 := (pyDec2_bounds real conv).1
    have h2 := pyDec1_nonneg real conv hstep0
    omega
  have hp1 : (1:ℕ) ≤ 2 ^ bp := Nat.one_le_two_pow
  have hpow : (2:ℕ) ^ bits = 2 * 2 ^ (bits - 1) := by
    have hb' : bits - 1 + 1 = bits := by omega
    conv_lhs => rw [← hb']
    rw [pow_succ']
  have hple : (2:ℕ) ^ bp ≤ 2 ^ (bits - 1) := Nat.pow_le_pow_right (by norm_num) (by omega)
  have hkey : 0 ≤ ((if real < 0 then conv.sign_mask else 0 : ℕ) : ℤ) +
      (((pyIntVal real conv <<< conv.bin_point) &&& conv.int_mask : ℕ) : ℤ) +
      pyDec2 real conv ∧
      ((if real < 0 then conv.sign_mask else 0 : ℕ) : ℤ) +
      (((pyIntVal real conv <<< conv.bin_point) &&& conv.int_mask : ℕ) : ℤ) +
      pyDec2 real conv < 2 ^ bits := by
    by_cases hneg : real < 0
    · have hsg : conv.signed = true := by
        cases hb2 : conv.signed
        · exact absurd ⟨hb2, hneg⟩ hg
        · rfl
      have hs' : s = true := by
        rw [hc] at hsg
        exact hsg
      subst hs'
      obtain ⟨hb3, hc3⟩ := get_conv_ok_signed h
      have hsm : conv.sign_mask = 2 ^ (bits - 1) := by rw [hc3]
      have him : conv.int_mask = 2 ^ (bits - 1) - 2 ^ bp := by
        rw [hc3]
        exact listPowSum_pyRange bp (bits - 1) (by omega)
      rw [if_pos hneg, hsm, him]
      rw [him] at hMle
      have hzpow : ((2:ℤ) ^ bits : ℤ) = ((2 ^ bits : ℕ) : ℤ) := by push_cast; rfl
      rw [hzpow]
      have hsmpos : (1:ℕ) ≤ 2 ^ (bits - 1) := Nat.one_le_two_pow
      omega
    · have hSz : (if real < 0 then conv.sign_mask else 0) = 0 := if_neg hneg
      have hD0 : 0 ≤ pyDec2 real conv := by
        rw [pyDec2_eq_of_nonneg real conv hneg hstep0]
        exact pyDec1_nonneg real conv hstep0
      have him_le : conv.int_mask ≤ 2 ^ bits - 2 ^ bp := by
        cases s
        · have him : conv.int_mask = 2 ^ bits - 2 ^ bp := by
            rw [hc]
            exact listPowSum_pyRange bp bits (le_of_lt hbp)
          omega
        · have him : conv.int_mask = 2 ^ (bits - 1) - 2 ^ bp := by
            rw [hc]
            exact listPowSum_pyRange bp (bits - 1) (by omega)
          omega
      rw [hSz]
      have hzpow : ((2:ℤ) ^ bits : ℤ) = ((2 ^ bits : ℕ) : ℤ) := by push_cast; rfl
      rw [hzpow]
      omega
  refine ⟨?_, ?_, ?_⟩
  · rw [hresz]
    exact Rat.den_intCast _
  · rw [hresz, Rat.num_intCast]
    exact hkey.1
  · rw [hresz, Rat.num_intCast, hbits]
    exact hkey.2

/-- Witness for `real2fix_output_range`: encoding the exactly representable
value 5 in the unsigned 8-bit integer format. -/
theorem real2fix_output_range_witness :
    ((((5 <<< 0) &&& 255 : ℕ) : ℚ) + ((0 : ℕ) : ℚ)).den = 1 ∧
    0 ≤ ((((5 <<< 0) &&& 255 : ℕ) : ℚ) + ((0 : ℕ) : ℚ)).num ∧
    ((((5 <<< 0) &&& 255 : ℕ) : ℚ) + ((0 : ℕ) : ℚ)).num < 2 ^ 8 :=
  real2fix_output_range 8 0 false 1
    (Conv.mk 8 0 false 1 (1 / 2 ^ 0) (listPowSum (pyRange 0 0)) 'B' 0 0
      (listPowSum (pyRange 0 8)) (listPowSum (pyRange 0 8)))
    rfl (by decide) _ _
    (real2fix_nonneg_repr
      (Conv.mk 8 0 false 1 (1 / 2 ^ 0) (listPowSum (pyRange 0 0)) 'B' 0 0
        (listPowSum (pyRange 0 8)) (listPowSum (pyRange 0 8))) 5 0 rfl rfl (by decide) (by decide))


end Fixreal
